import Mathlib

/-!
Verification of the protodb record store (Malpizarr/protodb).

The development shallowly embeds the Go sources:

* `src/data/table.go` — the `data` package `Table`: a record set persisted in
  one encrypted file (mapping primary-key string to a record with string
  fields) plus the in-memory secondary `Indexes`
  (`map[string]map[string]*dbdata.Record`).  Every mutating method re-reads
  the whole record set from the file, mutates it in memory and rewrites the
  whole file; the `Records` field of the struct is never used, so the file
  contents are the authoritative record set.  We model the decoded file
  contents directly and elide the encrypt/decrypt round trip, which is assumed
  lossless by the source (`CodecError` / `IOError` paths are not modelled:
  the claims under study concern the logical state transitions).

  Go map iteration order is unspecified; the model iterates association lists
  in list order, which realises one admissible order.  Go maps cannot hold a
  key twice, so `Nodup` hypotheses on key lists correspond to states every Go
  map satisfies by construction.

  Pointer semantics of index entries: `Indexes[field][value]` stores a
  pointer to a record object.  Each mutating call decodes fresh objects from
  the file, and only objects created by the running call are ever mutated, so
  an object's content is frozen once its call returns.  The model therefore
  stores in each index entry the content the pointed-to object has when the
  call that wrote the entry finishes.

* `src/pkg/data/joins.go` — `JoinTables` and `mergeRecords` over the pkg
  variant of records whose fields are `*structpb.Value`.  The pkg `Table`,
  `ResetAndLoadIndexes` and `Equal` are not part of the sources; the join is
  modelled over the two index buckets it iterates, and `Equal` is modelled
  from the spec (typed string/number/boolean equality).
-/

namespace ProtoDB

/-- A Go `interface{}` value as it appears in the `data.Record` input map:
either a string, or some non-string value carrying its `fmt %v` rendering. -/
inductive GoValue where
  | str (s : String)
  | other (rendering : String)
deriving DecidableEq

/-- The input `Record` of table.go: `map[string]interface{}` as an
association list (Go maps have pairwise-distinct keys). -/
abbrev IRecord := List (String × GoValue)

/-- The persisted `dbdata.Record`: `Fields map[string]string`. -/
abbrev Fields := List (String × String)

/-- The persisted `dbdata.Records`: `map[string]*dbdata.Record`,
primary-key string to record. -/
abbrev RecordSet := List (String × Fields)

/-- The errors table.go returns from Insert/Update/Delete. -/
inductive GoErr where
  | dup
  | notFound
  | badType
deriving DecidableEq

/-- `fmt.Sprintf %v` of `record[t.PrimaryKey]`: a missing key yields the Go
nil interface, which formats as `<nil>`. -/
def fmtV : Option GoValue → String
  | none => "<nil>"
  | some (GoValue.str s) => s
  | some (GoValue.other r) => r

/-- Go map lookup on the input record. -/
def lookupI : IRecord → String → Option GoValue
  | [], _ => none
  | (k, v) :: rest, key => if k = key then some v else lookupI rest key

/-- Go map lookup on a record's `Fields`. -/
def lookupF : Fields → String → Option String
  | [], _ => none
  | (k, v) :: rest, key => if k = key then some v else lookupF rest key

/-- Go map assignment `Fields[key] = val`: replace the existing binding or
add a new one. -/
def insertF : Fields → String → String → Fields
  | [], k, v => [(k, v)]
  | (a, b) :: rest, k, v =>
      if a = k then (k, v) :: rest else (a, b) :: insertF rest k v

/-- Go map lookup on the record set. -/
def lookupRS : RecordSet → String → Option Fields
  | [], _ => none
  | (k, r) :: rest, key => if k = key then some r else lookupRS rest key

/-- In-place replacement of the record stored under `key`
(the effect of mutating `existingRecord.Fields` inside `Update`). -/
def rsSet : RecordSet → String → Fields → RecordSet
  | [], _, _ => []
  | (a, b) :: rest, k, r =>
      if a = k then (k, r) :: rest else (a, b) :: rsSet rest k r

/-- Go `delete(allRecords.Records, key)`. -/
def rsRemove : RecordSet → String → RecordSet
  | [], _ => []
  | (a, b) :: rest, k =>
      if a = k then rsRemove rest k else (a, b) :: rsRemove rest k

/-- `Table.Indexes`: field name, then observed field value, to the content of
the record object the entry points at.  A missing inner map and an inner map
without the value are observationally the same in Go (both lookups give nil),
so the index is modelled as a total function to `Option`. -/
abbrev Index := String → String → Option Fields

def emptyIndex : Index := fun _ _ => none

/-- `t.Indexes[f][v] = r`. -/
def idxSet (idx : Index) (f v : String) (r : Fields) : Index :=
  fun f' v' => if f' = f ∧ v' = v then some r else idx f' v'

/-- `delete(t.Indexes[f], v)` (a no-op when the bucket is absent, which the
function model absorbs). -/
def idxDel (idx : Index) (f v : String) : Index :=
  fun f' v' => if f' = f ∧ v' = v then none else idx f' v'

/-- The observable state of a `data.Table`: its primary-key field name, the
decoded contents of its file, and its secondary indexes. -/
structure TableState where
  primaryKey : String
  file : RecordSet
  idx : Index

/-- `Table.LoadIndexes`: scan every record decoded from the file and write
`Indexes[key][value] = record` for each field, on top of the given index. -/
def loadIndexesFrom (idx : Index) (rs : RecordSet) : Index :=
  rs.foldl (fun acc kr => kr.2.foldl (fun a fv => idxSet a fv.1 fv.2 kr.2) acc) idx

/-- The index `LoadIndexes` rebuilds from a record set when starting from
empty indexes (what `ResetAndLoadIndexes` produces). -/
def rebuiltIndex (rs : RecordSet) : Index :=
  loadIndexesFrom emptyIndex rs

/-- The field-copy loop of `Table.Insert`: `protoRecord.Fields[key] = val`
for each field of the input record, stopping with `false` at the first
non-string value (the `invalid value type` error). -/
def insLoop : IRecord → Fields → Fields × Bool
  | [], acc => (acc, true)
  | (k, GoValue.str s) :: rest, acc => insLoop rest (insertF acc k s)
  | (_, GoValue.other _) :: _, acc => (acc, false)

/-- The (field, value) pairs `Insert`'s loop has processed when it stops:
the longest all-string prefix of the input record.  These are exactly the
index entries the loop wrote. -/
def strPfx : IRecord → Fields
  | [] => []
  | (k, GoValue.str s) :: rest => (k, s) :: strPfx rest
  | (_, GoValue.other _) :: _ => []

/-- `Table.Insert`.  The primary-key value is `fmt.Sprintf %v` of
`record[t.PrimaryKey]`; a duplicate key fails before any mutation; a
non-string field value fails after the prefix of index writes; on success the
record is added and the file rewritten.  All index entries written by the
call point at `protoRecord`, whose content when the call stops is the
processed prefix. -/
def insertT (t : TableState) (rec : IRecord) : TableState × Option GoErr :=
  let pkv := fmtV (lookupI rec t.primaryKey)
  if (lookupRS t.file pkv).isSome then
    (t, some GoErr.dup)
  else
    let p := insLoop rec []
    let idx' := (strPfx rec).foldl (fun a kv => idxSet a kv.1 kv.2 p.1) t.idx
    if p.2 then
      ({ t with file := t.file ++ [(pkv, p.1)], idx := idx' }, none)
    else
      ({ t with idx := idx' }, some GoErr.badType)

/-- `Table.SelectAll`: every record decoded from the file. -/
def selectAllT (t : TableState) : List Fields :=
  t.file.map (fun p => p.2)

/-- The final content of `existingRecord.Fields` after `Update`'s loop:
each string-valued update is applied in order; the loop stops at the first
non-string value without applying it. -/
def updFinalFields : Fields → IRecord → Fields
  | flds, [] => flds
  | flds, (f, GoValue.str s) :: rest => updFinalFields (insertF flds f s) rest
  | flds, (_, GoValue.other _) :: _ => flds

/-- The index effect of `Update`'s loop, threading the evolving
`existingRecord.Fields`: for each update, first delete the entry for the old
value when the field is present, then (for a string value) install the entry
for the new value pointing at the record, whose content when the call stops
is `finR`.  Returns `false` when a non-string value stops the loop (after
that field's delete, matching the source order). -/
def updIdx (finR : Fields) : Fields → IRecord → Index → Index × Bool
  | _, [], idx => (idx, true)
  | flds, (f, v) :: rest, idx =>
      let idx1 := match lookupF flds f with
        | some ov => idxDel idx f ov
        | none => idx
      match v with
      | GoValue.str s => updIdx finR (insertF flds f s) rest (idxSet idx1 f s finR)
      | GoValue.other _ => (idx1, false)

/-- `Table.Update`: a missing key fails with the not-found error before any
mutation; otherwise the loop applies the updates to the record object (shared
by the record set and the entries it installs) and the file is rewritten on
success only. -/
def updateT (t : TableState) (key : String) (ups : IRecord) : TableState × Option GoErr :=
  match lookupRS t.file key with
  | none => (t, some GoErr.notFound)
  | some orig =>
      let finR := updFinalFields orig ups
      let p := updIdx finR orig ups t.idx
      if p.2 then
        ({ t with file := rsSet t.file key finR, idx := p.1 }, none)
      else
        ({ t with idx := p.1 }, some GoErr.badType)

/-- `Table.Delete`: a missing key fails with the not-found error; otherwise
every `(field, value)` pair of the record is deleted from the indexes, the
record is removed and the file rewritten. -/
def deleteT (t : TableState) (key : String) : TableState × Option GoErr :=
  match lookupRS t.file key with
  | none => (t, some GoErr.notFound)
  | some r =>
      ({ t with file := rsRemove t.file key,
                idx := r.foldl (fun a fv => idxDel a fv.1 fv.2) t.idx }, none)

/-- The Record Set keying invariant of the spec: every mapping key equals the
value stored under the table's primary-key field of the record it maps to. -/
def WellKeyed (t : TableState) : Prop :=
  ∀ k r, lookupRS t.file k = some r → lookupF r t.primaryKey = some k

/-- A freshly created empty table with primary key `id`
(what `NewTable` yields on an absent file). -/
def t0 : TableState :=
  { primaryKey := "id", file := [], idx := emptyIndex }

/-! ### The pkg/data join engine (`src/pkg/data/joins.go`)

`JoinTables` iterates the two index buckets `t1.Indexes[key1]` and
`t2.Indexes[key2]` after forcing a rebuild.  The pkg-side `Table`,
`ResetAndLoadIndexes` and `Equal` are not among the sources, so the join is
modelled as a function of the two buckets (lists of possibly-nil record
pointers, in the iteration order the Go map runtime happens to use), and
`Equal` is modelled from the spec. -/

/-- A `structpb.Value` kind as stored in a pkg `dbdata.Record` field.
Struct and list payloads are irrelevant to the sources under study and are
not carried. -/
inductive PBValue where
  | vstr (s : String)
  | vnum (q : Rat)
  | vbool (b : Bool)
  | vnull
  | vstruct
  | vlist
deriving DecidableEq

/-- A dynamic value stored in a merged join row (`interface{}` in Go):
the extracted string/number/boolean, or the nil interface. -/
inductive JValue where
  | jstr (s : String)
  | jnum (q : Rat)
  | jbool (b : Bool)
  | jnil
deriving DecidableEq

/-- A pkg `dbdata.Record`: `Fields map[string]*structpb.Value`; a field may
hold a nil pointer (`none`). -/
abbrev PBRecord := List (String × Option PBValue)

/-- `rec.Fields[k]` in Go: a missing key yields the zero value, a nil
pointer, indistinguishable from a stored nil pointer. -/
def fieldPB : PBRecord → String → Option PBValue
  | [], _ => none
  | (k, v) :: rest, key => if k = key then v else fieldPB rest key

/-- Modelled from the spec: the `Equal` helper of the pkg/data package is
not among the sources.  The spec requires a typed-equality comparison that is
string/number/boolean aware; values of different kinds, unsupported kinds or
nil pointers never compare equal.  (structpb numbers are float64; they are
modelled as exact rationals, which is faithful for the equality comparison of
decoded numeric values.) -/
def pbEqual : Option PBValue → Option PBValue → Bool
  | some (PBValue.vstr a), some (PBValue.vstr b) => a = b
  | some (PBValue.vnum a), some (PBValue.vnum b) => a = b
  | some (PBValue.vbool a), some (PBValue.vbool b) => a = b
  | _, _ => false

/-- A merged join row: `map[string]interface{}` as a total function
(missing key = `none`). -/
abbrev JRow := String → Option JValue

/-- `result[k] = v`. -/
def putRow (row : JRow) (k : String) (v : JValue) : JRow :=
  fun q => if q = k then some v else row q

/-- `extractValue` inside `mergeRecords`: strings, numbers and booleans are
extracted; every other kind falls to the default branch and yields the nil
interface. -/
def extractValue : PBValue → JValue
  | PBValue.vstr s => JValue.jstr s
  | PBValue.vnum q => JValue.jnum q
  | PBValue.vbool b => JValue.jbool b
  | PBValue.vnull => JValue.jnil
  | PBValue.vstruct => JValue.jnil
  | PBValue.vlist => JValue.jnil

/-- One side of `mergeRecords`: for every field whose `*structpb.Value` is
non-nil, assign `result[pre + name] = extractValue(value)`; fields holding a
nil pointer are skipped. -/
def addSide (pre : String) : PBRecord → JRow → JRow
  | [], row => row
  | (k, some v) :: rest, row => addSide pre rest (putRow row (pre ++ k) (extractValue v))
  | (_, none) :: rest, row => addSide pre rest row

/-- `mergeRecords rec1 rec2`: prefix `rec1`'s fields with `t1.` and `rec2`'s
with `t2.`; a nil record pointer contributes nothing. -/
def mergeRecords (rec1 rec2 : Option PBRecord) : JRow :=
  let row0 : JRow := fun _ => none
  let row1 := match rec1 with
    | some r => addSide "t1." r row0
    | none => row0
  match rec2 with
  | some r => addSide "t2." r row1
  | none => row1

/-- The four join kinds of joins.go. -/
inductive JoinType where
  | innerJoin
  | leftJoin
  | rightJoin
  | fullOuterJoin
deriving DecidableEq, BEq

/-- The inner loop body of `JoinTables`' first pass: append the merged row
and set the matched flag when `rec2` is non-nil and the key fields compare
equal. -/
def innerStep (rec1 : PBRecord) (k1 k2 : String) (p : List JRow × Bool)
    (rec2? : Option PBRecord) : List JRow × Bool :=
  match rec2? with
  | some rec2 =>
      if pbEqual (fieldPB rec1 k1) (fieldPB rec2 k2) then
        (p.1 ++ [mergeRecords (some rec1) (some rec2)], true)
      else p
  | none => p

/-- The body of `JoinTables`' first pass over `t1.Indexes[key1]`: skip nil
records, scan the second bucket for matches, and append a `t1.`-only row when
nothing matched and the join kind is left or full outer. -/
def t1Step (b2 : List (Option PBRecord)) (k1 k2 : String) (jt : JoinType)
    (results : List JRow) (rec1? : Option PBRecord) : List JRow :=
  match rec1? with
  | none => results
  | some rec1 =>
      let p := b2.foldl (innerStep rec1 k1 k2) (results, false)
      if !p.2 && (jt == JoinType.leftJoin || jt == JoinType.fullOuterJoin) then
        p.1 ++ [mergeRecords (some rec1) none]
      else p.1

/-- The matched test of `JoinTables`' second pass: does any non-nil record of
the first bucket compare equal on the key fields? -/
def matchedInB1 (b1 : List (Option PBRecord)) (rec2 : PBRecord) (k1 k2 : String) : Bool :=
  b1.any (fun rec1? =>
    match rec1? with
    | some rec1 => pbEqual (fieldPB rec1 k1) (fieldPB rec2 k2)
    | none => false)

/-- The body of `JoinTables`' second pass over `t2.Indexes[key2]`: skip nil
records and append a `t2.`-only row for records with no counterpart. -/
def t2Step (b1 : List (Option PBRecord)) (k1 k2 : String)
    (results : List JRow) (rec2? : Option PBRecord) : List JRow :=
  match rec2? with
  | none => results
  | some rec2 =>
      if matchedInB1 b1 rec2 k1 k2 then results
      else results ++ [mergeRecords none (some rec2)]

/-- `JoinTables` over the two index buckets: the first pass always runs; the
second pass runs for right and full outer joins only. -/
def joinTables (b1 b2 : List (Option PBRecord)) (k1 k2 : String) (jt : JoinType) : List JRow :=
  let afterT1 := b1.foldl (t1Step b2 k1 k2 jt) []
  if jt == JoinType.rightJoin || jt == JoinType.fullOuterJoin then
    b2.foldl (t2Step b1 k1 k2) afterT1
  else afterT1

/-- Specification-side description of the matches one `t1` record produces:
one merged row per non-nil `t2`-bucket record whose key field compares equal,
in bucket order. -/
def specInnerRows (r1 : PBRecord) : List (Option PBRecord) → String → String → List JRow
  | [], _, _ => []
  | none :: rest, k1, k2 => specInnerRows r1 rest k1 k2
  | some r2 :: rest, k1, k2 =>
      if pbEqual (fieldPB r1 k1) (fieldPB r2 k2) then
        mergeRecords (some r1) (some r2) :: specInnerRows r1 rest k1 k2
      else specInnerRows r1 rest k1 k2

/-- Specification-side description of the first pass: for each non-nil `t1`
record, its inner matches exactly once each; when it has none and `lone` is
set (left or full outer join), a single `t1.`-only row instead. -/
def specT1Rows : List (Option PBRecord) → List (Option PBRecord) → String → String → Bool → List JRow
  | [], _, _, _, _ => []
  | none :: rest, b2, k1, k2, lone => specT1Rows rest b2 k1 k2 lone
  | some r1 :: rest, b2, k1, k2, lone =>
      (if (specInnerRows r1 b2 k1 k2).isEmpty then
        (if lone then [mergeRecords (some r1) none] else [])
      else specInnerRows r1 b2 k1 k2)
      ++ specT1Rows rest b2 k1 k2 lone

/-- Specification-side description of the second pass: one `t2.`-only row for
each non-nil `t2`-bucket record with no matching `t1` record. -/
def specT2Lone (b1 : List (Option PBRecord)) : List (Option PBRecord) → String → String → List JRow
  | [], _, _ => []
  | none :: rest, k1, k2 => specT2Lone b1 rest k1 k2
  | some r2 :: rest, k1, k2 =>
      (if matchedInB1 b1 r2 k1 k2 then [] else [mergeRecords none (some r2)])
      ++ specT2Lone b1 rest k1 k2

/-! ### Concrete states used by counterexamples and witnesses -/

/-- `t0` after inserting the record `id=1, d=x`. -/
def tIns1 : TableState :=
  (insertT t0 [("id", GoValue.str "1"), ("d", GoValue.str "x")]).1

/-- `tIns1` after also inserting `id=2, d=x` (two records sharing the
`(d, x)` pair). -/
def tIns2 : TableState :=
  (insertT tIns1 [("id", GoValue.str "2"), ("d", GoValue.str "x")]).1

/-! ## Basic lemmas about the map operations -/

theorem lookupRS_append (rs rs' : RecordSet) (k : String) :
    lookupRS (rs ++ rs') k =
      match lookupRS rs k with
      | some r => some r
      | none => lookupRS rs' k := by
  induction rs with
  | nil => simp [lookupRS]
  | cons p rest ih =>
      obtain ⟨a, b⟩ := p
      by_cases h : a = k <;> simp [lookupRS, h, ih]

theorem lookupRS_rsRemove (rs : RecordSet) (k q : String) :
    lookupRS (rsRemove rs k) q = if q = k then none else lookupRS rs q := by
  induction rs with
  | nil => simp [lookupRS, rsRemove]
  | cons p rest ih =>
      obtain ⟨a, b⟩ := p
      by_cases hak : a = k
      · subst hak
        by_cases hq : q = a
        · subst hq
          simp [rsRemove, ih]
        · simp [rsRemove, lookupRS, hq, ih, Ne.symm hq]
      · by_cases haq : a = q
        · have hqk : ¬ q = k := fun h => hak (haq.trans h)
          simp [rsRemove, lookupRS, hak, haq, hqk]
        · simp [rsRemove, lookupRS, hak, haq, ih]

theorem lookupRS_rsSet (rs : RecordSet) (k : String) (r : Fields) (q : String) :
    lookupRS (rsSet rs k r) q =
      if q = k then (lookupRS rs k).map (fun _ => r) else lookupRS rs q := by
  induction rs with
  | nil => simp [lookupRS, rsSet]
  | cons p rest ih =>
      obtain ⟨a, b⟩ := p
      by_cases hak : a = k
      · subst hak
        by_cases hq : q = a
        · simp [rsSet, lookupRS, hq]
        · simp [rsSet, lookupRS, hq, Ne.symm hq]
      · by_cases haq : a = q
        · have hqk : ¬ q = k := fun h => hak (haq.trans h)
          simp [rsSet, lookupRS, hak, haq, hqk]
        · simp [rsSet, lookupRS, hak, haq, ih]

theorem lookupF_insertF_self (flds : Fields) (k v : String) :
    lookupF (insertF flds k v) k = some v := by
  induction flds with
  | nil => simp [lookupF, insertF]
  | cons p rest ih =>
      obtain ⟨a, b⟩ := p
      by_cases hak : a = k <;> simp [lookupF, insertF, hak, ih]

theorem lookupF_insertF_ne (flds : Fields) (k v q : String) (h : q ≠ k) :
    lookupF (insertF flds k v) q = lookupF flds q := by
  induction flds with
  | nil => simp [lookupF, insertF, Ne.symm h]
  | cons p rest ih =>
      obtain ⟨a, b⟩ := p
      by_cases hak : a = k
      · subst hak
        simp [lookupF, insertF, Ne.symm h]
      · by_cases haq : a = q <;> simp [lookupF, insertF, hak, haq, ih, h]

theorem insertF_eq_append (flds : Fields) (k v : String) (h : lookupF flds k = none) :
    insertF flds k v = flds ++ [(k, v)] := by
  induction flds with
  | nil => simp [insertF]
  | cons p rest ih =>
      obtain ⟨a, b⟩ := p
      by_cases hak : a = k
      · simp [lookupF, hak] at h
      · simp [lookupF, hak] at h
        simp [insertF, hak, ih h]

theorem lookupF_append (l1 l2 : Fields) (q : String) :
    lookupF (l1 ++ l2) q =
      match lookupF l1 q with
      | some v => some v
      | none => lookupF l2 q := by
  induction l1 with
  | nil => simp [lookupF]
  | cons p rest ih =>
      obtain ⟨a, b⟩ := p
      by_cases h : a = q <;> simp [lookupF, h, ih]

theorem lookupI_eq_none (l : IRecord) (k : String) (h : k ∉ l.map Prod.fst) :
    lookupI l k = none := by
  induction l with
  | nil => simp [lookupI]
  | cons p rest ih =>
      obtain ⟨a, b⟩ := p
      simp only [List.map_cons, List.mem_cons] at h
      push_neg at h
      simp [lookupI, Ne.symm h.1, ih h.2]

theorem lookupF_eq_none (l : Fields) (k : String) (h : k ∉ l.map Prod.fst) :
    lookupF l k = none := by
  induction l with
  | nil => simp [lookupF]
  | cons p rest ih =>
      obtain ⟨a, b⟩ := p
      simp only [List.map_cons, List.mem_cons] at h
      push_neg at h
      simp [lookupF, Ne.symm h.1, ih h.2]

/-! ## Index pointwise lemmas -/

theorem idxSet_self (idx : Index) (f v : String) (r : Fields) :
    idxSet idx f v r f v = some r := by
  simp [idxSet]

theorem idxSet_ne (idx : Index) (f v : String) (r : Fields) (f' v' : String)
    (h : ¬ (f' = f ∧ v' = v)) : idxSet idx f v r f' v' = idx f' v' := by
  simp [idxSet, h]

theorem idxDel_self (idx : Index) (f v : String) :
    idxDel idx f v f v = none := by
  simp [idxDel]

theorem idxDel_ne (idx : Index) (f v : String) (f' v' : String)
    (h : ¬ (f' = f ∧ v' = v)) : idxDel idx f v f' v' = idx f' v' := by
  simp [idxDel, h]

/-- A fold of deletes cannot resurrect an entry. -/
theorem foldDel_none (l : Fields) :
    ∀ (idx : Index) (f v : String), idx f v = none →
      (l.foldl (fun a fv => idxDel a fv.1 fv.2) idx) f v = none := by
  induction l with
  | nil => intro idx f v h; simpa using h
  | cons p rest ih =>
      intro idx f v h
      simp only [List.foldl_cons]
      apply ih
      by_cases hh : f = p.1 ∧ v = p.2
      · simp [idxDel, hh]
      · simp [idxDel, hh, h]

/-- A fold of deletes over a pair list erases every pair of the list. -/
theorem foldDel_mem (l : Fields) :
    ∀ (idx : Index) (fv : String × String), fv ∈ l →
      (l.foldl (fun a fv => idxDel a fv.1 fv.2) idx) fv.1 fv.2 = none := by
  induction l with
  | nil => intro idx fv h; simp at h
  | cons p rest ih =>
      intro idx fv h
      rcases List.mem_cons.mp h with h1 | h2
      · subst h1
        simp only [List.foldl_cons]
        apply foldDel_none
        simp [idxDel]
      · simp only [List.foldl_cons]
        exact ih _ fv h2

/-- Pointwise congruence for the fold writing one record's index entries. -/
theorem foldSet_congr (r : Fields) (l : List (String × String)) :
    ∀ (i1 i2 : Index), (∀ f v, i1 f v = i2 f v) →
      ∀ f v, (l.foldl (fun a fv => idxSet a fv.1 fv.2 r) i1) f v
           = (l.foldl (fun a fv => idxSet a fv.1 fv.2 r) i2) f v := by
  induction l with
  | nil => intro i1 i2 h f v; simpa using h f v
  | cons p rest ih =>
      intro i1 i2 h f v
      simp only [List.foldl_cons]
      apply ih
      intro f' v'
      by_cases hh : f' = p.1 ∧ v' = p.2
      · simp [idxSet, hh]
      · simp [idxSet, hh, h]

/-! ## The Insert loop -/

/-- When `Insert`'s field loop completes, every input value was a string. -/
theorem insLoop_success_strings (rec : IRecord) :
    ∀ acc, (insLoop rec acc).2 = true →
      ∀ kv ∈ rec, ∃ s, kv.2 = GoValue.str s := by
  induction rec with
  | nil => intro acc _ kv h; simp at h
  | cons p rest ih =>
      intro acc hs kv hmem
      obtain ⟨k, v⟩ := p
      cases v with
      | str s =>
          rcases List.mem_cons.mp hmem with h1 | h2
          · exact ⟨s, by rw [h1]⟩
          · exact ih _ (by simpa [insLoop] using hs) kv h2
      | other r => simp [insLoop] at hs

/-- With pairwise-distinct field names not already bound in the accumulator
(always true of a Go map record and the empty accumulator), a completing
`Insert` loop builds exactly the processed prefix appended to the
accumulator. -/
theorem insLoop_acc (rec : IRecord) :
    ∀ acc, (∀ kv ∈ rec, lookupF acc kv.1 = none) →
      (rec.map Prod.fst).Nodup → (insLoop rec acc).2 = true →
      (insLoop rec acc).1 = acc ++ strPfx rec := by
  induction rec with
  | nil => intro acc _ _ _; simp [insLoop, strPfx]
  | cons p rest ih =>
      intro acc hfresh hnd hs
      obtain ⟨k, v⟩ := p
      cases v with
      | str s =>
          have hk : lookupF acc k = none := hfresh (k, GoValue.str s) (List.mem_cons_self _ _)
          have hnd' : (rest.map Prod.fst).Nodup := (List.nodup_cons.mp (by simpa using hnd)).2
          have hknotin : k ∉ rest.map Prod.fst := (List.nodup_cons.mp (by simpa using hnd)).1
          have hfresh' : ∀ kv ∈ rest, lookupF (insertF acc k s) kv.1 = none := by
            intro kv hmem
            have hne : kv.1 ≠ k := by
              intro hh
              exact hknotin (hh ▸ List.mem_map_of_mem Prod.fst hmem)
            rw [lookupF_insertF_ne _ _ _ _ hne]
            exact hfresh kv (List.mem_cons_of_mem _ hmem)
          have heq : insertF acc k s = acc ++ [(k, s)] := insertF_eq_append acc k s hk
          have := ih (insertF acc k s) hfresh' hnd' (by simpa [insLoop] using hs)
          simp only [insLoop, strPfx]
          rw [this, heq, List.append_assoc]
          rfl
      | other r => simp [insLoop] at hs

/-- In an all-string record, the processed prefix is the whole record, and
its lookups mirror the input record's. -/
theorem lookupF_strPfx (rec : IRecord) (k s : String)
    (hstr : ∀ kv ∈ rec, ∃ s', kv.2 = GoValue.str s')
    (h : lookupI rec k = some (GoValue.str s)) :
    lookupF (strPfx rec) k = some s := by
  induction rec with
  | nil => simp [lookupI] at h
  | cons p rest ih =>
      obtain ⟨a, v⟩ := p
      cases v with
      | str b =>
          by_cases hak : a = k
          · subst hak
            simp [lookupI] at h
            simp [strPfx, lookupF, h]
          · simp [lookupI, hak] at h
            have := ih (fun kv hmem => hstr kv (List.mem_cons_of_mem _ hmem)) h
            simp [strPfx, lookupF, hak, this]
      | other r =>
          exact absurd (hstr (a, GoValue.other r) (List.mem_cons_self _ _))
            (by simp)

/-! ## The Update loop -/

/-- `updFinalFields` leaves fields outside the update set untouched. -/
theorem updFF_ne (ups : IRecord) (f : String)
    (h : ∀ kv ∈ ups, kv.1 ≠ f) :
    ∀ flds, lookupF (updFinalFields flds ups) f = lookupF flds f := by
  induction ups with
  | nil => intro flds; simp [updFinalFields]
  | cons p rest ih =>
      intro flds
      obtain ⟨g, v⟩ := p
      cases v with
      | str s =>
          have hgf : g ≠ f := h (g, GoValue.str s) (List.mem_cons_self _ _)
          have := ih (fun kv hmem => h kv (List.mem_cons_of_mem _ hmem)) (insertF flds g s)
          rw [updFinalFields, this, lookupF_insertF_ne _ _ _ _ (Ne.symm hgf)]
      | other r => simp [updFinalFields]

/-- With distinct, all-string update fields, `updFinalFields` stores each
update's value under its field. -/
theorem updFF_mem (ups : IRecord) (f s : String)
    (hstr : ∀ kv ∈ ups, ∃ s', kv.2 = GoValue.str s')
    (hnd : (ups.map Prod.fst).Nodup)
    (h : lookupI ups f = some (GoValue.str s)) :
    ∀ flds, lookupF (updFinalFields flds ups) f = some s := by
  induction ups with
  | nil => simp [lookupI] at h
  | cons p rest ih =>
      intro flds
      obtain ⟨g, v⟩ := p
      cases v with
      | str b =>
          by_cases hgf : g = f
          · subst hgf
            simp [lookupI] at h
            subst h
            have hnotin : g ∉ rest.map Prod.fst := (List.nodup_cons.mp (by simpa using hnd)).1
            have hne : ∀ kv ∈ rest, kv.1 ≠ g := by
              intro kv hmem hh
              exact hnotin (hh ▸ List.mem_map_of_mem Prod.fst hmem)
            rw [updFinalFields, updFF_ne rest g hne, lookupF_insertF_self]
          · simp [lookupI, hgf] at h
            have hstr' : ∀ kv ∈ rest, ∃ s', kv.2 = GoValue.str s' :=
              fun kv hmem => hstr kv (List.mem_cons_of_mem _ hmem)
            have hnd' : (rest.map Prod.fst).Nodup := (List.nodup_cons.mp (by simpa using hnd)).2
            rw [updFinalFields]
            exact ih hstr' hnd' h _
      | other r =>
          exact absurd (hstr (g, GoValue.other r) (List.mem_cons_self _ _)) (by simp)

/-- When `Update`'s loop completes, every update value was a string. -/
theorem updIdx_success_strings (finR : Fields) (ups : IRecord) :
    ∀ flds idx, (updIdx finR flds ups idx).2 = true →
      ∀ kv ∈ ups, ∃ s, kv.2 = GoValue.str s := by
  induction ups with
  | nil => intro flds idx _ kv h; simp at h
  | cons p rest ih =>
      intro flds idx hs kv hmem
      obtain ⟨g, v⟩ := p
      cases v with
      | str s =>
          rcases List.mem_cons.mp hmem with h1 | h2
          · exact ⟨s, by rw [h1]⟩
          · exact ih _ _ (by simpa [updIdx] using hs) kv h2
      | other r => simp [updIdx] at hs

/-- Pointwise characterisation of the index after a completing `Update`
loop with pairwise-distinct update fields (a Go map):
the entry for an updated field's new value points at the final record,
the entry its old value held is deleted (unless the new value re-creates
it), and every other entry is untouched. -/
theorem updIdx_char (finR : Fields) (ups : IRecord) :
    ∀ flds idx, (ups.map Prod.fst).Nodup →
      (updIdx finR flds ups idx).2 = true →
      ∀ f v, (updIdx finR flds ups idx).1 f v =
        match lookupI ups f with
        | some (GoValue.str s) =>
            if v = s then some finR
            else if lookupF flds f = some v then none
            else idx f v
        | _ => idx f v := by
  induction ups with
  | nil =>
      intro flds idx _ _ f v
      simp [updIdx, lookupI]
  | cons p rest ih =>
      intro flds idx hnd hs f v
      obtain ⟨g, w⟩ := p
      cases w with
      | other r => simp [updIdx] at hs
      | str s0 =>
          have hnotin : g ∉ rest.map Prod.fst := (List.nodup_cons.mp (by simpa using hnd)).1
          have hnd' : (rest.map Prod.fst).Nodup := (List.nodup_cons.mp (by simpa using hnd)).2
          cases hov : lookupF flds g with
          | some ov =>
              have hs' : (updIdx finR (insertF flds g s0) rest
                  (idxSet (idxDel idx g ov) g s0 finR)).2 = true := by
                simpa [updIdx, hov] using hs
              have hrec := ih (insertF flds g s0) (idxSet (idxDel idx g ov) g s0 finR) hnd' hs'
              have lhs1 : (updIdx finR flds ((g, GoValue.str s0) :: rest) idx).1 f v
                  = (updIdx finR (insertF flds g s0) rest
                      (idxSet (idxDel idx g ov) g s0 finR)).1 f v := by
                simp [updIdx, hov]
              by_cases hfg : f = g
              · subst hfg
                have hrest : lookupI rest f = none := lookupI_eq_none rest f hnotin
                rw [lhs1, hrec f v, hrest]
                simp only [lookupI, if_pos rfl, hov]
                by_cases hvs : v = s0
                · simp [idxSet, hvs]
                · by_cases hvo : v = ov
                  · simp [idxSet, idxDel, hvs, hvo]
                  · have hov2 : ¬ ov = v := fun h => hvo h.symm
                    simp [idxSet, idxDel, hvs, hvo, hov2]
              · have e1 : lookupF (insertF flds g s0) f = lookupF flds f :=
                  lookupF_insertF_ne _ _ _ _ hfg
                have e2 : (idxSet (idxDel idx g ov) g s0 finR) f v = idx f v := by
                  rw [idxSet_ne _ _ _ _ _ _ (fun hh => hfg hh.1),
                      idxDel_ne _ _ _ _ _ (fun hh => hfg hh.1)]
                rw [lhs1, hrec f v, e1]
                cases hli : lookupI rest f with
                | none => simp [lookupI, Ne.symm hfg, hli, e2]
                | some gv =>
                    cases gv with
                    | str s => simp [lookupI, Ne.symm hfg, hli, e2]
                    | other rr => simp [lookupI, Ne.symm hfg, hli, e2]
          | none =>
              have hs' : (updIdx finR (insertF flds g s0) rest
                  (idxSet idx g s0 finR)).2 = true := by
                simpa [updIdx, hov] using hs
              have hrec := ih (insertF flds g s0) (idxSet idx g s0 finR) hnd' hs'
              have lhs1 : (updIdx finR flds ((g, GoValue.str s0) :: rest) idx).1 f v
                  = (updIdx finR (insertF flds g s0) rest (idxSet idx g s0 finR)).1 f v := by
                simp [updIdx, hov]
              by_cases hfg : f = g
              · subst hfg
                have hrest : lookupI rest f = none := lookupI_eq_none rest f hnotin
                rw [lhs1, hrec f v, hrest]
                simp only [lookupI, if_pos rfl, hov]
                by_cases hvs : v = s0
                · simp [idxSet, hvs]
                · simp [idxSet, hvs]
              · have e1 : lookupF (insertF flds g s0) f = lookupF flds f :=
                  lookupF_insertF_ne _ _ _ _ hfg
                have e2 : (idxSet idx g s0 finR) f v = idx f v := by
                  rw [idxSet_ne _ _ _ _ _ _ (fun hh => hfg hh.1)]
                rw [lhs1, hrec f v, e1]
                cases hli : lookupI rest f with
                | none => simp [lookupI, Ne.symm hfg, hli, e2]
                | some gv =>
                    cases gv with
                    | str s => simp [lookupI, Ne.symm hfg, hli, e2]
                    | other rr => simp [lookupI, Ne.symm hfg, hli, e2]

/-- `Update` on a key absent from the record set fails before any mutation. -/
theorem updateT_none (u : TableState) (key : String) (ups : IRecord)
    (h : lookupRS u.file key = none) :
    updateT u key ups = (u, some GoErr.notFound) := by
  simp [updateT, h]

/-- `Delete` on a key absent from the record set fails before any mutation. -/
theorem deleteT_none (u : TableState) (key : String)
    (h : lookupRS u.file key = none) :
    deleteT u key = (u, some GoErr.notFound) := by
  simp [deleteT, h]

/-- The successful `Delete` transition, explicitly. -/
theorem deleteT_some (u : TableState) (key : String) (r : Fields)
    (h : lookupRS u.file key = some r) :
    deleteT u key =
      ({ u with file := rsRemove u.file key,
                idx := r.foldl (fun a fv => idxDel a fv.1 fv.2) u.idx }, none) := by
  simp [deleteT, h]

/-- `Insert` of an already-present primary-key value fails before any
mutation. -/
theorem insertT_dup (u : TableState) (rec : IRecord)
    (h : (lookupRS u.file (fmtV (lookupI rec u.primaryKey))).isSome = true) :
    insertT u rec = (u, some GoErr.dup) := by
  simp [insertT, h]

/-- The successful `Insert` transition, explicitly. -/
theorem insertT_success (t : TableState) (rec : IRecord) (flds : Fields)
    (hdup : (lookupRS t.file (fmtV (lookupI rec t.primaryKey))).isSome = false)
    (hp : insLoop rec [] = (flds, true)) :
    insertT t rec =
      ({ t with file := t.file ++ [(fmtV (lookupI rec t.primaryKey), flds)],
                idx := (strPfx rec).foldl (fun a kv => idxSet a kv.1 kv.2 flds) t.idx },
       none) := by
  simp [insertT, hdup, hp]

/-- The `Insert` transition stopped by a non-string field value: the file is
untouched, the index keeps the entries written before the error. -/
theorem insertT_badType (t : TableState) (rec : IRecord) (flds : Fields)
    (hdup : (lookupRS t.file (fmtV (lookupI rec t.primaryKey))).isSome = false)
    (hp : insLoop rec [] = (flds, false)) :
    insertT t rec =
      ({ t with idx := (strPfx rec).foldl (fun a kv => idxSet a kv.1 kv.2 flds) t.idx },
       some GoErr.badType) := by
  simp [insertT, hdup, hp]

/-- The successful `Update` transition, explicitly. -/
theorem updateT_success (t : TableState) (key : String) (ups : IRecord) (orig : Fields)
    (h : lookupRS t.file key = some orig)
    (hp : (updIdx (updFinalFields orig ups) orig ups t.idx).2 = true) :
    updateT t key ups =
      ({ t with file := rsSet t.file key (updFinalFields orig ups),
                idx := (updIdx (updFinalFields orig ups) orig ups t.idx).1 }, none) := by
  simp [updateT, h, hp]

/-- The `Update` transition stopped by a non-string update value: the file
is untouched, the index keeps the mutations made before the error. -/
theorem updateT_badType (t : TableState) (key : String) (ups : IRecord) (orig : Fields)
    (h : lookupRS t.file key = some orig)
    (hp : (updIdx (updFinalFields orig ups) orig ups t.idx).2 = false) :
    updateT t key ups =
      ({ t with idx := (updIdx (updFinalFields orig ups) orig ups t.idx).1 },
       some GoErr.badType) := by
  simp [updateT, h, hp]

/-- A field absent from a Go map differs from every key the map holds. -/
theorem lookupI_none_forall (l : IRecord) (k : String) (h : lookupI l k = none) :
    ∀ kv ∈ l, kv.1 ≠ k := by
  induction l with
  | nil => intro kv hmem; simp at hmem
  | cons p rest ih =>
      intro kv hmem
      obtain ⟨a, b⟩ := p
      by_cases hak : a = k
      · simp [lookupI, hak] at h
      · simp [lookupI, hak] at h
        rcases List.mem_cons.mp hmem with h1 | h2
        · rw [h1]; exact hak
        · exact ih h kv h2

/-! ## Claim theorems -/

/-- Claim C3: Insert of a record whose primary-key value is already present
in the Record Set fails with the duplicate-key error and returns the table
state — Record Set, Index and file contents — entirely unchanged. -/
theorem c3_duplicate_insert_rejected (t : TableState) (rec : IRecord)
    (h : (lookupRS t.file (fmtV (lookupI rec t.primaryKey))).isSome = true) :
    insertT t rec = (t, some GoErr.dup) :=
  insertT_dup t rec h

theorem c3_duplicate_insert_rejected_witness :
    insertT tIns1 [("id", GoValue.str "1"), ("d", GoValue.str "y")]
      = (tIns1, some GoErr.dup) :=
  c3_duplicate_insert_rejected tIns1 [("id", GoValue.str "1"), ("d", GoValue.str "y")]
    (by decide)

/-- Claim C7: Update and Delete on a key absent from the Record Set fail
with the not-found error and leave the state (Record Set, Index, file)
unchanged; in particular the second of two Deletes of the same key fails
with the not-found error. -/
theorem c7_missing_key_errors (t : TableState) (key : String) :
    (lookupRS t.file key = none →
      (∀ ups, updateT t key ups = (t, some GoErr.notFound)) ∧
      deleteT t key = (t, some GoErr.notFound)) ∧
    (∀ r, lookupRS t.file key = some r →
      deleteT (deleteT t key).1 key = ((deleteT t key).1, some GoErr.notFound)) := by
  refine ⟨fun h => ⟨fun ups => updateT_none t key ups h, deleteT_none t key h⟩, ?_⟩
  intro r h
  apply deleteT_none
  rw [deleteT_some t key r h]
  show lookupRS (rsRemove t.file key) key = none
  rw [lookupRS_rsRemove]
  simp

theorem c7_missing_key_errors_witness :
    updateT tIns1 "zz" [("d", GoValue.str "y")] = (tIns1, some GoErr.notFound) ∧
    deleteT (deleteT tIns1 "1").1 "1" = ((deleteT tIns1 "1").1, some GoErr.notFound) :=
  ⟨((c7_missing_key_errors tIns1 "zz").1 (by decide)).1 [("d", GoValue.str "y")],
   (c7_missing_key_errors tIns1 "1").2 [("id", "1"), ("d", "x")] (by decide)⟩

/-- Claim C8: Delete of a present key succeeds, removes the record from the
Record Set (SelectAll afterwards enumerates exactly the remaining records),
removes the index entry for every (field, value) pair the record holds, and
flushes the new record set to the file. -/
theorem c8_delete_removes (t : TableState) (key : String) (r : Fields)
    (h : lookupRS t.file key = some r) :
    (deleteT t key).2 = none ∧
    (deleteT t key).1.file = rsRemove t.file key ∧
    lookupRS (deleteT t key).1.file key = none ∧
    selectAllT (deleteT t key).1 = (rsRemove t.file key).map (fun p => p.2) ∧
    ∀ fv ∈ r, (deleteT t key).1.idx fv.1 fv.2 = none := by
  rw [deleteT_some t key r h]
  refine ⟨rfl, rfl, ?_, rfl, ?_⟩
  · show lookupRS (rsRemove t.file key) key = none
    rw [lookupRS_rsRemove]
    simp
  · intro fv hmem
    exact foldDel_mem r t.idx fv hmem

theorem c8_delete_removes_witness :
    lookupRS (deleteT tIns1 "1").1.file "1" = none ∧
    (deleteT tIns1 "1").1.idx "d" "x" = none := by
  have h := c8_delete_removes tIns1 "1" [("id", "1"), ("d", "x")] (by decide)
  exact ⟨h.2.2.1, h.2.2.2.2 ("d", "x") (by decide)⟩

/-- Claim C9: Insert of a record lacking the primary-key field does not fail
for that reason: the nil value formats to `<nil>`, the record is stored
under the key `<nil>`, and a second insert of a record lacking the
primary-key field then fails as a duplicate. -/
theorem c9_nil_primary_key (t : TableState) (rec : IRecord) (flds : Fields)
    (h1 : lookupI rec t.primaryKey = none)
    (h2 : lookupRS t.file "<nil>" = none)
    (h3 : insLoop rec [] = (flds, true)) :
    (insertT t rec).2 = none ∧
    (insertT t rec).1.file = t.file ++ [("<nil>", flds)] ∧
    lookupRS (insertT t rec).1.file "<nil>" = some flds ∧
    ∀ rec2, lookupI rec2 t.primaryKey = none →
      insertT (insertT t rec).1 rec2 = ((insertT t rec).1, some GoErr.dup) := by
  have hins : insertT t rec =
      ({ t with file := t.file ++ [("<nil>", flds)],
                idx := (strPfx rec).foldl (fun a kv => idxSet a kv.1 kv.2 flds) t.idx },
       none) := by
    simp [insertT, h1, fmtV, h2, h3]
  have hlook : lookupRS (insertT t rec).1.file "<nil>" = some flds := by
    rw [hins]
    show lookupRS (t.file ++ [("<nil>", flds)]) "<nil>" = some flds
    rw [lookupRS_append, h2]
    simp [lookupRS]
  refine ⟨by rw [hins], by rw [hins], hlook, ?_⟩
  intro rec2 h4
  apply insertT_dup
  have hpk : (insertT t rec).1.primaryKey = t.primaryKey := by rw [hins]
  rw [hpk, h4]
  show (lookupRS (insertT t rec).1.file "<nil>").isSome = true
  rw [hlook]
  rfl

theorem c9_nil_primary_key_witness :
    (insertT t0 [("name", GoValue.str "a")]).2 = none ∧
    lookupRS (insertT t0 [("name", GoValue.str "a")]).1.file "<nil>"
      = some [("name", "a")] := by
  have h := c9_nil_primary_key t0 [("name", GoValue.str "a")] [("name", "a")]
    (by decide) (by decide) (by decide)
  exact ⟨h.1, h.2.2.1⟩

/-- Claim C10: when two distinct records hold the same (field, value) pair,
Delete of the first removes the index entry for that pair unconditionally —
even though the entry points at the second record, which survives in the
Record Set. -/
theorem c10_shared_pair_delete (t : TableState) (k1 k2 f v : String) (r1 r2 : Fields)
    (h1 : lookupRS t.file k1 = some r1)
    (h2 : lookupRS t.file k2 = some r2)
    (hne : k2 ≠ k1)
    (hf1 : (f, v) ∈ r1)
    (hf2 : (f, v) ∈ r2)
    (hidx : t.idx f v = some r2) :
    (deleteT t k1).2 = none ∧
    (deleteT t k1).1.idx f v = none ∧
    lookupRS (deleteT t k1).1.file k2 = some r2 := by
  rw [deleteT_some t k1 r1 h1]
  refine ⟨rfl, ?_, ?_⟩
  · exact foldDel_mem r1 t.idx (f, v) hf1
  · show lookupRS (rsRemove t.file k1) k2 = some r2
    rw [lookupRS_rsRemove]
    simp [hne, h2]

theorem c10_shared_pair_delete_witness :
    (deleteT tIns2 "1").1.idx "d" "x" = none ∧
    lookupRS (deleteT tIns2 "1").1.file "2" = some [("id", "2"), ("d", "x")] := by
  have h := c10_shared_pair_delete tIns2 "1" "2" "d" "x"
    [("id", "1"), ("d", "x")] [("id", "2"), ("d", "x")]
    (by decide) (by decide) (by decide) (by decide) (by decide) (by decide)
  exact ⟨h.2.1, h.2.2⟩

/-- Claim C1 is refuted on the code: a successful Update whose updates
include the primary-key field rewrites the in-record value but never rekeys
the Record Set, so after updating record "1" with id=2 the mapping key "1"
and the stored primary-key value "2" diverge. -/
theorem c1_counterexample :
    (updateT tIns1 "1" [("id", GoValue.str "2")]).2 = none ∧
    ¬ WellKeyed (updateT tIns1 "1" [("id", GoValue.str "2")]).1 := by
  constructor
  · decide
  · intro h
    have h2 := h "1" [("id", "2"), ("d", "x")] (by decide)
    revert h2
    decide

/-- Claim C1 (amended): the keying invariant — every Record Set key equals
the record's stored primary-key value — is preserved by Insert of a record
whose primary-key field holds a string (and by failed Inserts), by Update
whose updates do not include the primary-key field (and by failed Updates),
and by Delete; it is not preserved by an Update that rewrites the
primary-key field, which changes the in-record value without rekeying. -/
theorem c1_wellKeyed_preserved (t : TableState) (hW : WellKeyed t) :
    (∀ rec s, (rec.map Prod.fst).Nodup →
      lookupI rec t.primaryKey = some (GoValue.str s) →
      WellKeyed (insertT t rec).1) ∧
    (∀ key ups, (∀ kv ∈ ups, kv.1 ≠ t.primaryKey) →
      WellKeyed (updateT t key ups).1) ∧
    (∀ key, WellKeyed (deleteT t key).1) := by
  refine ⟨?_, ?_, ?_⟩
  · -- Insert
    intro rec s hnd hpk
    cases hdup : (lookupRS t.file (fmtV (lookupI rec t.primaryKey))).isSome with
    | true =>
        rw [insertT_dup t rec hdup]
        exact hW
    | false =>
        cases hp : insLoop rec [] with
        | mk flds ok =>
            cases ok with
            | false =>
                rw [insertT_badType t rec flds hdup hp]
                exact hW
            | true =>
                rw [insertT_success t rec flds hdup hp]
                intro k r hk
                show lookupF r t.primaryKey = some k
                rw [hpk] at hk
                have hk' : lookupRS (t.file ++ [(s, flds)]) k = some r := hk
                rw [lookupRS_append] at hk'
                cases hf : lookupRS t.file k with
                | some r0 =>
                    rw [hf] at hk'
                    have h3 : r0 = r := by simpa using hk'
                    rw [← h3]
                    exact hW k r0 hf
                | none =>
                    rw [hf] at hk'
                    simp [lookupRS] at hk'
                    obtain ⟨hks, hfr⟩ := hk'
                    subst hks
                    subst hfr
                    have hs2 : (insLoop rec []).2 = true := by rw [hp]
                    have hstr := insLoop_success_strings rec [] hs2
                    have hacc := insLoop_acc rec []
                      (by intro kv _; simp [lookupF]) hnd hs2
                    rw [hp] at hacc
                    simp at hacc
                    rw [hacc]
                    exact lookupF_strPfx rec t.primaryKey s hstr hpk
  · -- Update
    intro key ups hups
    cases hf : lookupRS t.file key with
    | none =>
        rw [updateT_none t key ups hf]
        exact hW
    | some orig =>
        cases hp2 : (updIdx (updFinalFields orig ups) orig ups t.idx).2 with
        | false =>
            rw [updateT_badType t key ups orig hf hp2]
            exact hW
        | true =>
            rw [updateT_success t key ups orig hf hp2]
            intro k r hk
            show lookupF r t.primaryKey = some k
            have hk' : lookupRS (rsSet t.file key (updFinalFields orig ups)) k = some r := hk
            rw [lookupRS_rsSet] at hk'
            by_cases hkk : k = key
            · subst hkk
              rw [if_pos rfl, hf] at hk'
              simp at hk'
              subst hk'
              rw [updFF_ne ups t.primaryKey hups orig]
              exact hW k orig hf
            · rw [if_neg hkk] at hk'
              exact hW k r hk'
  · -- Delete
    intro key
    cases hf : lookupRS t.file key with
    | none =>
        rw [deleteT_none t key hf]
        exact hW
    | some r0 =>
        rw [deleteT_some t key r0 hf]
        intro k r hk
        show lookupF r t.primaryKey = some k
        have hk' : lookupRS (rsRemove t.file key) k = some r := hk
        rw [lookupRS_rsRemove] at hk'
        by_cases hkk : k = key
        · rw [if_pos hkk] at hk'
          cases hk'
        · rw [if_neg hkk] at hk'
          exact hW k r hk'

theorem c1_wellKeyed_preserved_witness :
    WellKeyed (insertT t0 [("id", GoValue.str "1"), ("d", GoValue.str "x")]).1 := by
  have hW : WellKeyed t0 := by
    intro k r hk
    simp [t0, lookupRS] at hk
  exact (c1_wellKeyed_preserved t0 hW).1
    [("id", GoValue.str "1"), ("d", GoValue.str "x")] "1" (by decide) (by decide)

/-- Claim C2 is refuted on the code: after a successful Delete of record
"1" from a table whose records "1" and "2" share the pair (d, x), the Index
has no entry for (d, x) while the index LoadIndexes would rebuild from the
surviving Record Set maps it to record "2" — the Index is not the rebuild. -/
theorem c2_counterexample :
    (deleteT tIns2 "1").2 = none ∧
    (deleteT tIns2 "1").1.idx "d" "x" = none ∧
    rebuiltIndex (deleteT tIns2 "1").1.file "d" "x" = some [("id", "2"), ("d", "x")] := by
  decide

/-- Claim C2 (amended): the Index is not a cache that always equals the
LoadIndexes rebuild — a Delete of a record sharing a (field, value) pair
with a survivor erases an entry the rebuild restores, and a failed Insert
leaves entries for a record that was never added.  A successful Insert of a
record with pairwise-distinct field names does preserve pointwise equality
between the Index and the rebuild of the Record Set (records scanned in
insertion order). -/
theorem c2_insert_preserves_rebuild (t : TableState) (rec : IRecord)
    (hnd : (rec.map Prod.fst).Nodup)
    (hEq : ∀ f v, t.idx f v = rebuiltIndex t.file f v)
    (hok : (insertT t rec).2 = none) :
    ∀ f v, (insertT t rec).1.idx f v = rebuiltIndex (insertT t rec).1.file f v := by
  cases hdup : (lookupRS t.file (fmtV (lookupI rec t.primaryKey))).isSome with
  | true =>
      rw [insertT_dup t rec hdup] at hok
      simp at hok
  | false =>
      cases hp : insLoop rec [] with
      | mk flds ok =>
          cases ok with
          | false =>
              rw [insertT_badType t rec flds hdup hp] at hok
              simp at hok
          | true =>
              rw [insertT_success t rec flds hdup hp]
              intro f v
              have hflds : flds = strPfx rec := by
                have hs2 : (insLoop rec []).2 = true := by rw [hp]
                have hacc := insLoop_acc rec []
                  (by intro kv _; simp [lookupF]) hnd hs2
                rw [hp] at hacc
                simpa using hacc
              have hr : ∀ f' v',
                  rebuiltIndex (t.file ++ [(fmtV (lookupI rec t.primaryKey), flds)]) f' v'
                  = (flds.foldl (fun a fv => idxSet a fv.1 fv.2 flds)
                      (rebuiltIndex t.file)) f' v' := by
                intro f' v'
                unfold rebuiltIndex loadIndexesFrom
                rw [List.foldl_append]
                rfl
              show ((strPfx rec).foldl (fun a kv => idxSet a kv.1 kv.2 flds) t.idx) f v
                  = rebuiltIndex (t.file ++ [(fmtV (lookupI rec t.primaryKey), flds)]) f v
              rw [hr f v, ← hflds]
              exact foldSet_congr flds flds t.idx (rebuiltIndex t.file) hEq f v

theorem c2_insert_preserves_rebuild_witness :
    (insertT t0 [("id", GoValue.str "1")]).1.idx "id" "1"
      = rebuiltIndex (insertT t0 [("id", GoValue.str "1")]).1.file "id" "1" :=
  c2_insert_preserves_rebuild t0 [("id", GoValue.str "1")]
    (by decide) (fun _ _ => rfl) (by decide) "id" "1"

/-- Claim C4 is refuted on the code at updates that set a field to its
current value: record "1" holds d=x; the string-valued update d=x on the
existing key "1" succeeds, yet afterwards the Index still contains the
entry for (d, old-value) = (d, x) — the delete is followed by a re-insert
of the same pair. -/
theorem c4_counterexample :
    lookupRS tIns1.file "1" = some [("id", "1"), ("d", "x")] ∧
    lookupF [("id", "1"), ("d", "x")] "d" = some "x" ∧
    (updateT tIns1 "1" [("d", GoValue.str "x")]).2 = none ∧
    (updateT tIns1 "1" [("d", GoValue.str "x")]).1.idx "d" "x"
      = some [("id", "1"), ("d", "x")] := by
  decide

/-- Claim C4 (amended): a successful Update of an existing key with
string-valued, pairwise-distinct update fields replaces exactly the
specified fields of the stored record and touches no other record; for each
updated field, the index entry for the old value is gone whenever the new
value differs from it (when the new value equals the old, the delete is
followed by a re-insert, so the entry remains), the entry for the new value
points at the updated record, and entries of non-updated fields — or of an
updated field at values other than its old and new ones — are untouched. -/
theorem c4_update_fields_and_index (t : TableState) (key : String) (ups : IRecord)
    (orig : Fields)
    (h : lookupRS t.file key = some orig)
    (hnd : (ups.map Prod.fst).Nodup)
    (hok : (updateT t key ups).2 = none) :
    lookupRS (updateT t key ups).1.file key = some (updFinalFields orig ups) ∧
    (∀ f, lookupI ups f = none →
      lookupF (updFinalFields orig ups) f = lookupF orig f) ∧
    (∀ f s, lookupI ups f = some (GoValue.str s) →
      lookupF (updFinalFields orig ups) f = some s) ∧
    (∀ k', k' ≠ key → lookupRS (updateT t key ups).1.file k' = lookupRS t.file k') ∧
    (∀ f s ov, lookupI ups f = some (GoValue.str s) → lookupF orig f = some ov →
      ov ≠ s → (updateT t key ups).1.idx f ov = none) ∧
    (∀ f s, lookupI ups f = some (GoValue.str s) →
      (updateT t key ups).1.idx f s = some (updFinalFields orig ups)) ∧
    (∀ f v, lookupI ups f = none → (updateT t key ups).1.idx f v = t.idx f v) ∧
    (∀ f s v, lookupI ups f = some (GoValue.str s) → v ≠ s →
      lookupF orig f ≠ some v → (updateT t key ups).1.idx f v = t.idx f v) := by
  cases hp2 : (updIdx (updFinalFields orig ups) orig ups t.idx).2 with
  | false =>
      rw [updateT_badType t key ups orig h hp2] at hok
      simp at hok
  | true =>
      have hstr := updIdx_success_strings (updFinalFields orig ups) ups orig t.idx hp2
      have hchar := updIdx_char (updFinalFields orig ups) ups orig t.idx hnd hp2
      rw [updateT_success t key ups orig h hp2]
      refine ⟨?_, ?_, ?_, ?_, ?_, ?_, ?_, ?_⟩
      · show lookupRS (rsSet t.file key (updFinalFields orig ups)) key = _
        rw [lookupRS_rsSet, if_pos rfl, h]
        rfl
      · intro f hf
        exact updFF_ne ups f (lookupI_none_forall ups f hf) orig
      · intro f s hf
        exact updFF_mem ups f s hstr hnd hf orig
      · intro k' hk'
        show lookupRS (rsSet t.file key (updFinalFields orig ups)) k' = _
        rw [lookupRS_rsSet, if_neg hk']
      · intro f s ov hf hov hne2
        show (updIdx (updFinalFields orig ups) orig ups t.idx).1 f ov = none
        rw [hchar f ov, hf]
        simp [hne2, hov]
      · intro f s hf
        show (updIdx (updFinalFields orig ups) orig ups t.idx).1 f s = _
        rw [hchar f s, hf]
        simp
      · intro f v hf
        show (updIdx (updFinalFields orig ups) orig ups t.idx).1 f v = t.idx f v
        rw [hchar f v, hf]
      · intro f s v hf hvs hovne
        show (updIdx (updFinalFields orig ups) orig ups t.idx).1 f v = t.idx f v
        rw [hchar f v, hf]
        simp [hvs, hovne]

theorem c4_update_fields_and_index_witness :
    (updateT tIns1 "1" [("d", GoValue.str "y")]).1.idx "d" "x" = none ∧
    (updateT tIns1 "1" [("d", GoValue.str "y")]).1.idx "d" "y"
      = some [("id", "1"), ("d", "y")] ∧
    (updateT tIns1 "1" [("d", GoValue.str "y")]).1.idx "id" "1" = tIns1.idx "id" "1" := by
  have hc := c4_update_fields_and_index tIns1 "1" [("d", GoValue.str "y")]
    [("id", "1"), ("d", "x")] (by decide) (by decide) (by decide)
  refine ⟨hc.2.2.2.2.1 "d" "y" "x" (by decide) (by decide) (by decide), ?_, ?_⟩
  · exact (hc.2.2.2.2.2.1 "d" "y" (by decide)).trans (by decide)
  · exact hc.2.2.2.2.2.2.1 "id" "1" (by decide)

/-! ## The join engine: fold characterisations -/

/-- The inner scan of the first pass collects exactly the matches of `r1`,
appended to the accumulator, and its flag records whether any match
occurred. -/
theorem innerFold_eq (r1 : PBRecord) (k1 k2 : String) (b2 : List (Option PBRecord)) :
    ∀ (acc : List JRow) (m : Bool),
      b2.foldl (innerStep r1 k1 k2) (acc, m)
        = (acc ++ specInnerRows r1 b2 k1 k2,
           m || !(specInnerRows r1 b2 k1 k2).isEmpty) := by
  induction b2 with
  | nil => intro acc m; simp [specInnerRows]
  | cons r2? rest ih =>
      intro acc m
      cases r2? with
      | none => simp [innerStep, specInnerRows, ih]
      | some r2 =>
          cases heq : pbEqual (fieldPB r1 k1) (fieldPB r2 k2) with
          | true => simp [innerStep, specInnerRows, heq, ih]
          | false => simp [innerStep, specInnerRows, heq, ih]

/-- The first pass of `JoinTables` produces, for each non-nil `t1` record in
bucket order, its matches once each, or a lone `t1.`-only row when it has
none and the join kind is left or full outer. -/
theorem t1Fold_eq (b2 : List (Option PBRecord)) (k1 k2 : String) (jt : JoinType)
    (b1 : List (Option PBRecord)) :
    ∀ acc, b1.foldl (t1Step b2 k1 k2 jt) acc
      = acc ++ specT1Rows b1 b2 k1 k2
          (jt == JoinType.leftJoin || jt == JoinType.fullOuterJoin) := by
  induction b1 with
  | nil => intro acc; simp [specT1Rows]
  | cons r1? rest ih =>
      intro acc
      cases r1? with
      | none => simp [t1Step, specT1Rows, ih]
      | some r1 =>
          simp only [List.foldl_cons]
          have hstep : t1Step b2 k1 k2 jt acc (some r1)
              = acc ++ (if (specInnerRows r1 b2 k1 k2).isEmpty then
                  (if (jt == JoinType.leftJoin || jt == JoinType.fullOuterJoin) then
                    [mergeRecords (some r1) none]
                  else [])
                else specInnerRows r1 b2 k1 k2) := by
            show (let p := b2.foldl (innerStep r1 k1 k2) (acc, false)
              if !p.2 && (jt == JoinType.leftJoin || jt == JoinType.fullOuterJoin) then
                p.1 ++ [mergeRecords (some r1) none]
              else p.1) = _
            rw [innerFold_eq r1 k1 k2 b2 acc false]
            cases hrows : (specInnerRows r1 b2 k1 k2).isEmpty with
            | true =>
                have hnil : specInnerRows r1 b2 k1 k2 = [] :=
                  List.isEmpty_iff.mp hrows
                cases hl : (jt == JoinType.leftJoin || jt == JoinType.fullOuterJoin) <;>
                  simp [hnil, hl]
            | false => simp [hrows]
          rw [hstep, ih, specT1Rows, List.append_assoc]

/-- The second pass of `JoinTables` appends exactly one `t2.`-only row for
each non-nil `t2` record with no matching `t1` record, in bucket order. -/
theorem t2Fold_eq (b1 : List (Option PBRecord)) (k1 k2 : String)
    (b2 : List (Option PBRecord)) :
    ∀ acc, b2.foldl (t2Step b1 k1 k2) acc = acc ++ specT2Lone b1 b2 k1 k2 := by
  induction b2 with
  | nil => intro acc; simp [specT2Lone]
  | cons r2? rest ih =>
      intro acc
      cases r2? with
      | none => simp [t2Step, specT2Lone, ih]
      | some r2 =>
          cases hm : matchedInB1 b1 r2 k1 k2 with
          | true => simp [t2Step, specT2Lone, hm, ih]
          | false => simp [t2Step, specT2Lone, hm, ih]

/-- Claim C5: over any pair of index buckets and key fields, the full outer
join returns each inner match exactly once plus one `t1.`-only row per
matchless `t1`-index record plus one `t2.`-only row per matchless
`t2`-index record; the left join returns the inner matches plus only the
`t1.`-only rows; the right join returns the inner matches plus only the
`t2.`-only rows. -/
theorem c5_join_shape (b1 b2 : List (Option PBRecord)) (k1 k2 : String) :
    joinTables b1 b2 k1 k2 JoinType.fullOuterJoin
      = specT1Rows b1 b2 k1 k2 true ++ specT2Lone b1 b2 k1 k2 ∧
    joinTables b1 b2 k1 k2 JoinType.leftJoin = specT1Rows b1 b2 k1 k2 true ∧
    joinTables b1 b2 k1 k2 JoinType.rightJoin
      = specT1Rows b1 b2 k1 k2 false ++ specT2Lone b1 b2 k1 k2 := by
  refine ⟨?_, ?_, ?_⟩ <;> (simp only [joinTables, t1Fold_eq, t2Fold_eq]; rfl)

/-! ## String prefix facts for the merged-row keys -/

theorem str_data_append (s t : String) : (s ++ t).data = s.data ++ t.data := by
  cases s; cases t; rfl

theorem str_ext (s t : String) (h : s.data = t.data) : s = t := by
  cases s with
  | mk d1 =>
      cases t with
      | mk d2 =>
          have h2 : d1 = d2 := h
          rw [h2]

/-- Appending to a fixed key prefix is injective. -/
theorem pfx_cancel (p a b : String) (h : p ++ a = p ++ b) : a = b := by
  apply str_ext
  have hd := congrArg String.data h
  rw [str_data_append, str_data_append] at hd
  exact List.append_cancel_left hd

/-- A `t1.`-prefixed key never collides with a `t2.`-prefixed one. -/
theorem t1_ne_t2 (a b : String) : "t1." ++ a ≠ "t2." ++ b := by
  intro h
  have hd := congrArg String.data h
  rw [str_data_append, str_data_append] at hd
  have h1 : "t1.".data = ['t', '1', '.'] := rfl
  have h2 : "t2.".data = ['t', '2', '.'] := rfl
  rw [h1, h2] at hd
  injection hd with h3 h4
  injection h4 with h5 h6
  exact absurd h5 (by decide)

/-! ## mergeRecords lookups -/

/-- A side of the merge never writes keys outside its own prefixed field
set. -/
theorem addSide_ne (pre : String) (r : PBRecord) (q : String)
    (h : ∀ kv ∈ r, pre ++ kv.1 ≠ q) :
    ∀ row, addSide pre r row q = row q := by
  induction r with
  | nil => intro row; rfl
  | cons kv rest ih =>
      intro row
      obtain ⟨k, v?⟩ := kv
      cases v? with
      | none =>
          exact ih (fun kv hm => h kv (List.mem_cons_of_mem _ hm)) row
      | some v =>
          show addSide pre rest (putRow row (pre ++ k) (extractValue v)) q = row q
          rw [ih (fun kv hm => h kv (List.mem_cons_of_mem _ hm))]
          have hne : pre ++ k ≠ q := h (k, some v) (List.mem_cons_self _ _)
          simp [putRow, Ne.symm hne]

/-- A field with a non-nil value ends up in the merged row under its
prefixed key, holding its extracted value. -/
theorem addSide_mem_some (pre : String)
    (hinj : ∀ a b : String, pre ++ a = pre ++ b → a = b) (k : String) (v : PBValue) :
    ∀ (r : PBRecord), (r.map Prod.fst).Nodup → (k, some v) ∈ r →
      ∀ row, addSide pre r row (pre ++ k) = some (extractValue v) := by
  intro r
  induction r with
  | nil => intro _ hmem; simp at hmem
  | cons kv rest ih =>
      intro hnd hmem row
      obtain ⟨a, w?⟩ := kv
      have hnotin : a ∉ rest.map Prod.fst := (List.nodup_cons.mp (by simpa using hnd)).1
      have hnd' : (rest.map Prod.fst).Nodup := (List.nodup_cons.mp (by simpa using hnd)).2
      rcases List.mem_cons.mp hmem with h1 | h2
      · have hka : k = a := congrArg Prod.fst h1
        have hwv : some v = w? := congrArg Prod.snd h1
        subst hka
        rw [← hwv]
        show addSide pre rest (putRow row (pre ++ k) (extractValue v)) (pre ++ k)
            = some (extractValue v)
        have hne : ∀ kv ∈ rest, pre ++ kv.1 ≠ pre ++ k := by
          intro kv hm hh
          exact hnotin (hinj kv.1 k hh ▸ List.mem_map_of_mem Prod.fst hm)
        rw [addSide_ne pre rest (pre ++ k) hne]
        simp [putRow]
      · cases w? with
        | none =>
            show addSide pre rest row (pre ++ k) = some (extractValue v)
            exact ih hnd' h2 row
        | some w =>
            show addSide pre rest (putRow row (pre ++ a) (extractValue w)) (pre ++ k)
                = some (extractValue v)
            exact ih hnd' h2 _

/-- A field holding a nil value pointer contributes nothing: the row keeps
whatever was already under its prefixed key. -/
theorem addSide_mem_none (pre : String)
    (hinj : ∀ a b : String, pre ++ a = pre ++ b → a = b) (k : String) :
    ∀ (r : PBRecord), (r.map Prod.fst).Nodup → (k, none) ∈ r →
      ∀ row, addSide pre r row (pre ++ k) = row (pre ++ k) := by
  intro r
  induction r with
  | nil => intro _ hmem; simp at hmem
  | cons kv rest ih =>
      intro hnd hmem row
      obtain ⟨a, w?⟩ := kv
      have hnotin : a ∉ rest.map Prod.fst := (List.nodup_cons.mp (by simpa using hnd)).1
      have hnd' : (rest.map Prod.fst).Nodup := (List.nodup_cons.mp (by simpa using hnd)).2
      rcases List.mem_cons.mp hmem with h1 | h2
      · have hka : k = a := congrArg Prod.fst h1
        have hwv : (none : Option PBValue) = w? := congrArg Prod.snd h1
        subst hka
        rw [← hwv]
        show addSide pre rest row (pre ++ k) = row (pre ++ k)
        have hne : ∀ kv ∈ rest, pre ++ kv.1 ≠ pre ++ k := by
          intro kv hm hh
          exact hnotin (hinj kv.1 k hh ▸ List.mem_map_of_mem Prod.fst hm)
        exact addSide_ne pre rest (pre ++ k) hne row
      · have hak : k ≠ a := by
          intro hh
          exact hnotin (hh ▸ List.mem_map_of_mem Prod.fst h2)
        cases w? with
        | none =>
            show addSide pre rest row (pre ++ k) = row (pre ++ k)
            exact ih hnd' h2 row
        | some w =>
            show addSide pre rest (putRow row (pre ++ a) (extractValue w)) (pre ++ k)
                = row (pre ++ k)
            rw [ih hnd' h2 _]
            have hne2 : pre ++ k ≠ pre ++ a := fun hh => hak (hinj k a hh)
            simp [putRow, hne2]

/-- Claim C6 is refuted on the code: a field whose value kind is not a
string, number or boolean (here a protobuf null) is not dropped from the
merged row — its prefixed key is present and bound to the nil interface. -/
theorem c6_counterexample :
    mergeRecords (some [("f", some PBValue.vnull)])
        (some [("g", some (PBValue.vstr "y"))]) "t1.f" = some JValue.jnil := by
  decide

/-- Claim C6 (amended): in the merged row of two records, every field with
a non-nil value pointer appears under its `t1.`/`t2.`-prefixed key, holding
its value extracted to its dynamic type — the nil interface for kinds other
than string, number and boolean, which therefore keep their key rather than
being dropped; only fields whose value pointer is nil are dropped (no key in
the row). -/
theorem c6_merge_prefixed (r1 r2 : PBRecord)
    (h1 : (r1.map Prod.fst).Nodup) (h2 : (r2.map Prod.fst).Nodup) :
    (∀ k v, (k, some v) ∈ r1 →
      mergeRecords (some r1) (some r2) ("t1." ++ k) = some (extractValue v)) ∧
    (∀ k v, (k, some v) ∈ r2 →
      mergeRecords (some r1) (some r2) ("t2." ++ k) = some (extractValue v)) ∧
    (∀ k, (k, none) ∈ r1 → mergeRecords (some r1) (some r2) ("t1." ++ k) = none) ∧
    (∀ k, (k, none) ∈ r2 → mergeRecords (some r1) (some r2) ("t2." ++ k) = none) := by
  refine ⟨?_, ?_, ?_, ?_⟩
  · intro k v hm
    show addSide "t2." r2 (addSide "t1." r1 (fun _ => none)) ("t1." ++ k)
        = some (extractValue v)
    rw [addSide_ne "t2." r2 ("t1." ++ k) (fun kv _ hh => t1_ne_t2 k kv.1 hh.symm)]
    exact addSide_mem_some "t1." (pfx_cancel "t1.") k v r1 h1 hm _
  · intro k v hm
    exact addSide_mem_some "t2." (pfx_cancel "t2.") k v r2 h2 hm _
  · intro k hm
    show addSide "t2." r2 (addSide "t1." r1 (fun _ => none)) ("t1." ++ k) = none
    rw [addSide_ne "t2." r2 ("t1." ++ k) (fun kv _ hh => t1_ne_t2 k kv.1 hh.symm)]
    rw [addSide_mem_none "t1." (pfx_cancel "t1.") k r1 h1 hm _]
  · intro k hm
    show addSide "t2." r2 (addSide "t1." r1 (fun _ => none)) ("t2." ++ k) = none
    rw [addSide_mem_none "t2." (pfx_cancel "t2.") k r2 h2 hm _]
    rw [addSide_ne "t1." r1 ("t2." ++ k) (fun kv _ hh => t1_ne_t2 kv.1 k hh)]

theorem c6_merge_prefixed_witness :
    mergeRecords (some [("a", some (PBValue.vstr "u")), ("n", none)])
        (some [("b", some (PBValue.vbool true))]) "t1.a" = some (JValue.jstr "u") ∧
    mergeRecords (some [("a", some (PBValue.vstr "u")), ("n", none)])
        (some [("b", some (PBValue.vbool true))]) "t2.b" = some (JValue.jbool true) ∧
    mergeRecords (some [("a", some (PBValue.vstr "u")), ("n", none)])
        (some [("b", some (PBValue.vbool true))]) "t1.n" = none := by
  have hc := c6_merge_prefixed [("a", some (PBValue.vstr "u")), ("n", none)]
    [("b", some (PBValue.vbool true))] (by decide) (by decide)
  exact ⟨hc.1 "a" (PBValue.vstr "u") (by decide),
         hc.2.1 "b" (PBValue.vbool true) (by decide),
         hc.2.2.1 "n" (by decide)⟩

end ProtoDB
